import Mathlib

/-!
Verification development for `generate_union_kindle_enja.py`, the entry
curation and ranking engine of the union Kindle dictionary generator.

The Python source is shallowly embedded below.  Probabilities and shares
(Python floats parsed from strings) are modelled as rationals; the cost
function of the label ranker (which uses `math.log`) is modelled over the
reals.  Pure text operations that depend on Unicode property tables or on
the external tokenizer (`regex` character classes such as `\p{Latin}` and
`tkrzw_tokenizer.Tokenizer`) are kept opaque: they are bundled in the
`TextOps` record and every result is proved for an arbitrary instance.
-/

/-- Opaque text primitives used by `generate_union_kindle_enja.py`.
Each field corresponds to one regex- or tokenizer-based operation of the
source whose exact behaviour depends on Unicode property tables or on the
external tokenizer; all theorems below hold for every instantiation. -/
structure TextOps where
  /-- `c` matches `\p{Latin}` (used in the `[^\x20-\x7F\p{Latin}]` word scan
  of `IsGoodEntry`, line 359). -/
  isLatinChar : Char → Bool
  /-- `regex.search(r"(^| )[\p{Lu}\p{P}\p{S}\d]", word)` of `IsGoodEntry`
  line 416: the word starts a token with an uppercase letter, punctuation,
  symbol or digit. -/
  startsUpperPunctSymDigit : String → Bool
  /-- `CheckSafeText` (lines 258-266): no character outside ASCII printable
  plus Han/Hiragana/Katakana and a few marks, and none of backslash, braces,
  backtick. -/
  checkSafeText : String → Bool
  /-- `regex.sub(r" \[-+\] .*", "", text).strip()` (lines 527, 646, 680,
  757, 768): drop a trailing cross-reference annotation and strip. -/
  stripAnnot : String → String
  /-- `regex.sub(r"\(.*?\)", "", text).strip()` (lines 758, 769). -/
  stripParens : String → String
  /-- `regex.sub(r"\[.*?\]", "", text).strip()` (lines 759, 770). -/
  stripBrackets : String → String
  /-- Number of spaces left after `regex.sub(r"[^-_\p{Latin}\d']+", " ",
  text).strip()` (lines 530-531); the word count of line 531 is this + 1. -/
  latinSpaces : String → Nat
  /-- `TokenizeForDupCheck` (lines 731-737): external tokenizer plus
  cleanup, stop words removed. -/
  tokenizeForDup : String → List String
  /-- `regex.search(r"\w{20,}", text)` (line 561): the text contains a
  single token of at least 20 word characters. -/
  hasLongToken : String → Bool

/-- Python `str.split(sep)` for a single-character separator, on character
lists: empty segments between, before and after separators are kept. -/
def splitChars (sep : Char) : List Char → List (List Char)
  | [] => [[]]
  | c :: rest =>
    let r := splitChars sep rest
    if c = sep then [] :: r
    else
      match r with
      | [] => [[c]]
      | h :: t => (c :: h) :: t

/-- Python `str.split(sep)` for a single-character separator. -/
def splitOnChar (sep : Char) (s : String) : List String :=
  (splitChars sep s.data).map String.mk

/-- Python `str.strip()`: leading and trailing whitespace removed. -/
def trimString (s : String) : String :=
  String.mk (((s.data.dropWhile Char.isWhitespace).reverse.dropWhile
    Char.isWhitespace).reverse)

/-- `text.startswith("[translation]:")` (lines 368, 526, 557). -/
def textIsTranslation (t : String) : Bool :=
  "[translation]:".data.isPrefixOf t.data

/-- `ARTICLES` (line 100). -/
def ARTICLES : List String := ["a", "the", "an"]

/-- `PARTICLES` (lines 101-109). -/
def PARTICLES : List String :=
  ["aback", "about", "above", "abroad", "across", "after", "against", "ahead", "along",
   "amid", "among", "apart", "around", "as", "at", "away", "back", "before", "behind",
   "below", "beneath", "between", "beside", "beyond", "by", "despite", "during", "down",
   "except", "for", "forth", "from", "in", "inside", "into", "near", "of", "off", "on",
   "onto", "out", "outside", "over", "per", "re", "since", "than", "through", "throughout",
   "till", "to", "together", "toward", "under", "until", "up", "upon", "with", "within",
   "without", "via"]

/-- `INFLECTIONS` (lines 59-68): inflection attribute names grouped by part
of speech, each with its display label. -/
def INFLECTIONS : List (List (String × String)) :=
  [[("noun_plural", "複数")],
   [("verb_singular", "三単"),
    ("verb_present_participle", "現分"),
    ("verb_past", "過去"),
    ("verb_past_participle", "過分")],
   [("adjective_comparative", "形比"),
    ("adjective_superlative", "形最")],
   [("adverb_comparative", "副比"),
    ("adverb_superlative", "副最")]]

/-- The flattened inflection attribute names, in iteration order. -/
def inflectionNames : List String :=
  INFLECTIONS.flatMap (List.map Prod.fst)

/-- One element of an entry's `"item"` list: part of speech, source label,
free text.  `is_aux` models the `item["is_aux"] = True` mark set by
`MergeShownItems` (line 775); raw store items never carry it. -/
structure Item where
  pos : String
  label : String
  text : String
  is_aux : Bool := false
deriving DecidableEq

/-- A raw dictionary entry as deserialized from the store.  Optional JSON
fields are `Option`/lists; `probability` and `share` are float strings in
the source, modelled as rationals.  `inflFields` is the association of
inflection attribute names (from `INFLECTIONS`) to their comma-separated
values. -/
structure Entry where
  word : String
  probability : Option ℚ := none
  share : Option ℚ := none
  translation : List String := []
  item : List Item := []
  parent : List String := []
  inflFields : List (String × String) := []
deriving DecidableEq

/-- `float(entry.get("probability") or "0")` (lines 351, 363, 480):
a missing probability reads as 0. -/
def probOf (e : Entry) : ℚ := e.probability.getD 0

/-- `regex.search(r"[A-Z]", word)` (lines 375, 464, 483, 673). -/
def containsUpper (w : String) : Bool :=
  w.data.any fun c => 'A' ≤ c && c ≤ 'Z'

/-- `word.find(" ") >= 0` / `regex.search(r" ", word)` (lines 377, 418). -/
def containsSpace (w : String) : Bool := w.data.any (· = ' ')

/-- `regex.fullmatch(r"[a-z ]+", word)` (line 383); `\p{Latin}`-free ASCII
classes are implemented directly. -/
def isLowerSpaceWord (w : String) : Bool :=
  !w.data.isEmpty && w.data.all fun c => ('a' ≤ c && c ≤ 'z') || c = ' '

/-- `regex.fullmatch("[a-z]+", word)` (line 397). -/
def isLowerAlphaWord (w : String) : Bool :=
  !w.data.isEmpty && w.data.all fun c => 'a' ≤ c && c ≤ 'z'

/-- `regex.fullmatch(r"\d+(th)?", word)` (line 361); `\d` modelled as the
ASCII digits. -/
def isOrdinalWord (w : String) : Bool :=
  (!w.data.isEmpty && w.data.all Char.isDigit) ||
    (match w.data.reverse with
     | 'h' :: 't' :: rest => !rest.isEmpty && rest.all Char.isDigit
     | _ => false)

/-- `regex.search(r"[A-Z].*[A-Z]", word)` (line 494): at least two
uppercase letters. -/
def hasTwoUpper (w : String) : Bool :=
  2 ≤ w.data.countP fun c => 'A' ≤ c && c ≤ 'Z'

/-- `regex.search(r"[^\x20-\x7F\p{Latin}]", word)` (line 359): some
character is neither printable ASCII (incl. DEL) nor Latin script. -/
def hasForeignChar (ops : TextOps) (w : String) : Bool :=
  w.data.any fun c => !(0x20 ≤ c.toNat && c.toNat ≤ 0x7F) && !ops.isLatinChar c

/-- The configuration consumed by `IsGoodEntry` (constructor arguments of
`GenerateUnionEPUBBatch`, lines 282-299). -/
structure AdmissionConfig where
  trustableLabels : List String
  minProbNormal : ℚ
  minProbCapital : ℚ
  minProbMulti : ℚ
  sufficientProb : ℚ
deriving DecidableEq

/-- The `poses` set of `IsGoodEntry` (lines 364-367): parts of speech of
all items, collected before the translation-marker filter. -/
def entryPoses (e : Entry) : List String := e.item.map (·.pos)

/-- The `labels` set of `IsGoodEntry` (lines 365-369): labels of items
whose text is not a translation marker, as a duplicate-free list. -/
def entryLabels (e : Entry) : List String :=
  ((e.item.filter fun i => !textIsTranslation i.text).map (·.label)).eraseDups

/-- Admission rules 1-5 (`IsGoodEntry` lines 358-382): character/ordinal
rejects, keyword and trustable-label admits, the three probability floors,
and the sufficient-probability admit.  `some b` is an early return with
decision `b`; `none` falls through to the later rules. -/
def rules1to5 (cfg : AdmissionConfig) (ops : TextOps) (keywords : List String)
    (e : Entry) : Option Bool :=
  if hasForeignChar ops e.word then some false
  else if isOrdinalWord e.word then some false
  else
    let prob := probOf e
    if keywords.contains e.word then some true
    else if (entryLabels e).any (cfg.trustableLabels.contains ·) then some true
    else if containsUpper e.word && decide (prob < cfg.minProbCapital) then some false
    else if containsSpace e.word && decide (prob < cfg.minProbMulti) then some false
    else if prob < cfg.minProbNormal then some false
    else if cfg.sufficientProb ≤ prob then some true
    else none

/-- Admission rule 6 (`IsGoodEntry` lines 383-392): phrasal verbs.  The
word must carry a verb part of speech, consist only of lowercase letters
and spaces, split into at least two tokens whose head is a keyword, with
every trailing token a known particle. -/
def rule6Fires (keywords : List String) (e : Entry) : Bool :=
  (entryPoses e).contains "verb" && isLowerSpaceWord e.word &&
    (match splitOnChar ' ' e.word with
     | t0 :: t1 :: ts => keywords.contains t0 && (t1 :: ts).all (PARTICLES.contains ·)
     | _ => false)

/-- Admission rule 7 (`IsGoodEntry` lines 393-398): entries with
translations and a verb/adjective/adverb part of speech, or all-lowercase
words carrying the `"we"` label. -/
def rule7Fires (e : Entry) : Bool :=
  !e.translation.isEmpty &&
    ((entryPoses e).contains "verb" || (entryPoses e).contains "adjective" ||
      (entryPoses e).contains "adverb" ||
      (isLowerAlphaWord e.word && (entryLabels e).contains "we"))

/-- Inner scan of rule 8 (`IsGoodEntry` lines 409-413): the word equals
the exact (non-empty) value of some inflection field of the parent
entry. -/
def inflMatches (word : String) (pe : Entry) : Bool :=
  inflectionNames.any fun nm =>
    match pe.inflFields.lookup nm with
    | some v => !v.isEmpty && v == word
    | none => false

/-- One parent entry admits the child word (rule 8, lines 406-415): its
probability is at least 0.00005 and the word is not recorded as one of its
inflections. -/
def parentEntryAdmits (word : String) (pe : Entry) : Bool :=
  decide (mkRat 1 20000 ≤ pe.probability.getD 0) && !inflMatches word pe

/-- The parent loop of rule 8 (`IsGoodEntry` lines 400-415).  A missing
parent record returns `some false` (the bare `return`, line 404, which the
caller treats as a reject); a parent entry that admits returns
`some true`; otherwise the next parent key is tried, and `none` falls
through to rules 9-12. -/
def parentLoop (word : String) (store : String → Option (List Entry)) :
    List String → Option Bool
  | [] => none
  | p :: rest =>
    match store p with
    | none => some false
    | some pes =>
      if pes.any (parentEntryAdmits word) then some true
      else parentLoop word store rest

/-- Admission rules 9-12 (`IsGoodEntry` lines 416-422): reject words
starting a token with uppercase/punctuation/symbol/digit without the
`"we"` label, reject multi-token words, reject single-label words, admit
the rest. -/
def rules9to12 (ops : TextOps) (e : Entry) : Bool :=
  if ops.startsUpperPunctSymDigit e.word && !(entryLabels e).contains "we" then false
  else if containsSpace e.word then false
  else if (entryLabels e).length = 1 then false
  else true

/-- `IsGoodEntry` (lines 357-422): the full ordered admission rule
chain. -/
def IsGoodEntry (cfg : AdmissionConfig) (ops : TextOps)
    (store : String → Option (List Entry)) (keywords : List String)
    (e : Entry) : Bool :=
  match rules1to5 cfg ops keywords e with
  | some b => b
  | none =>
    if rule6Fires keywords e then true
    else if rule7Fires e then true
    else
      match parentLoop e.word store e.parent with
      | some b => b
      | none => rules9to12 ops e

/-- The label sets consumed by the label ranker (`MakeMainEntry`,
lines 506-550). -/
structure RankConfig where
  bestLabels : List String
  vettedLabels : List String
  preferableLabels : List String
deriving DecidableEq

/-- `word in ARTICLES or word in PARTICLES` (line 514). -/
def isStopWord (w : String) : Bool :=
  ARTICLES.contains w || PARTICLES.contains w

/-- One step of the per-label item scan of the cost loop (`MakeMainEntry`
lines 522-532), threading the running `(num_items, length_cost)` state.
The +10 safe-text penalty is applied before the translation-marker and
empty-text `continue`s, exactly as in the source. -/
noncomputable def costScanStep (ops : TextOps) (noPenalty : Bool)
    (st : Nat × ℝ) (it : Item) : Nat × ℝ :=
  let st := if !noPenalty && !ops.checkSafeText it.text then (st.1, st.2 + 10) else st
  if textIsTranslation it.text then st
  else
    let t := ops.stripAnnot it.text
    if t = "" then st
    else (st.1 + 1, st.2 + |Real.log 9 - Real.log ((ops.latinSpaces t : ℝ) + 1)|)

/-- The cost of one main-label candidate (`MakeMainEntry` lines 517-542):
`none` when no item of the label qualifies (the `continue` of line 533),
else `(itemCost + 0.5) * (lengthCost + 1) * qualityCost`. -/
noncomputable def labelCost (ops : TextOps) (cfg : RankConfig) (isStop : Bool)
    (label : String) (items : List Item) : Option ℝ :=
  let isBest := cfg.bestLabels.contains label
  let isVetted := !isStop && cfg.vettedLabels.contains label
  let st := items.foldl (costScanStep ops (isBest || isVetted)) (0, 0)
  if st.1 = 0 then none
  else
    let itemCost := |Real.log 5 - Real.log (st.1 : ℝ)|
    let lengthCost := st.2 / (st.1 : ℝ)
    let qualityCost : ℝ := if isBest then 0.8 else if isVetted then 1 else 1.25
    some ((itemCost + 0.5) * (lengthCost + 1) * qualityCost)

open Classical in
/-- One iteration of the minimum-cost selection (`MakeMainEntry`
lines 543-545).  Python's `if not min_cost or cost < min_cost` treats a
zero minimum like an unset one, hence the `m = 0` disjunct. -/
noncomputable def rankStep (cost : String → Option ℝ)
    (acc : Option (ℝ × String)) (label : String) : Option (ℝ × String) :=
  match cost label with
  | none => acc
  | some c =>
    match acc with
    | none => some (c, label)
    | some (m, b) => if m = 0 ∨ c < m then some (c, label) else some (m, b)

/-- The `for label in main_labels` loop (lines 516-545), iterating the
main-label set in the order given by `order`. -/
noncomputable def rankLabels (cost : String → Option ℝ) (order : List String) :
    Option (ℝ × String) :=
  order.foldl (rankStep cost) none

/-- `best_label` selection (`MakeMainEntry` lines 513-549).  `order` is an
enumeration of the entry's main-label set (a Python `set`, whose iteration
order is not determined by the inputs); with at least two main labels the
cost loop runs over `label_items[label] = [it for it in items if
it.label == label]`, with exactly one the single label wins outright, and
with none the first raw item's label is used. -/
noncomputable def chooseBestLabel (ops : TextOps) (cfg : RankConfig)
    (word : String) (items : List Item) (order : List String) : Option String :=
  match order with
  | [] => items.head?.map (·.label)
  | [l] => some l
  | _ :: _ :: _ =>
    (rankLabels
      (fun l => labelCost ops cfg (isStopWord word) l (items.filter (·.label == l)))
      order).map (·.2)

/-- The contiguous `n`-token windows of a token list. -/
def ngrams (n : Nat) (l : List String) : List (List String) :=
  (List.range (l.length + 1 - n)).map fun i => (l.drop i).take n

/-- Modelled from the spec: `tkrzw_dict.ComputeNGramPresision` (called at
line 773) is not part of this repository's sources.  Per §4.3 and the
glossary it is the fraction of the candidate's token n-grams (n = 3,
degrading to the candidate's length for shorter candidates) that occur in
the n-gram set of the reference token lists; 0 when the candidate has no
n-grams. -/
def computeNGramPrecision (candidate : List String)
    (references : List (List String)) (n : Nat) : ℚ :=
  if candidate = [] then 0
  else
    let m := min n candidate.length
    let cands := ngrams m candidate
    let refSet := references.flatMap (ngrams m)
    if cands = [] then 0
    else mkRat (cands.countP (refSet.contains ·)) cands.length

/-- The three-stage cleanup applied before tokenization in
`MergeShownItems` (lines 756-759 and 768-770). -/
def cleanForDup (ops : TextOps) (t : String) : String :=
  ops.stripBrackets (ops.stripParens (ops.stripAnnot t))

/-- The reference token lists of `MergeShownItems` (lines 754-761), built
from the already selected items; empty tokenizations are dropped. -/
def referencesOf (ops : TextOps) (merged : List Item) : List (List String) :=
  (merged.map fun it => ops.tokenizeForDup (cleanForDup ops it.text)).filter (· ≠ [])

/-- `min_shown_items` (lines 740-746). -/
def minShownItems (shrink : Bool) : Nat := if shrink then 3 else 5

/-- `mid_shown_items` (lines 740-747). -/
def midShownItems (shrink : Bool) : Nat := if shrink then 5 else 6

/-- `max_shown_items` (lines 740-747). -/
def maxShownItems (shrink : Bool) : Nat := if shrink then 8 else 10

/-- `max_dup_score` (line 748). -/
def maxDupScore : ℚ := mkRat 3 10

/-- The supplementary-item loop of `MergeShownItems` (lines 763-776):
stop at `mid` collected items, skip unsafe texts, and — when any reference
tokens exist — skip empty tokenizations and candidates whose n-gram
precision reaches `max_dup_score`; appended items are marked auxiliary. -/
def auxAppendLoop (ops : TextOps) (mid : Nat) (references : List (List String)) :
    List Item → List Item → List Item
  | merged, [] => merged
  | merged, it :: rest =>
    if mid ≤ merged.length then merged
    else if !ops.checkSafeText it.text then auxAppendLoop ops mid references merged rest
    else if references ≠ [] then
      if ops.tokenizeForDup (cleanForDup ops it.text) = [] then
        auxAppendLoop ops mid references merged rest
      else if maxDupScore ≤
          computeNGramPrecision (ops.tokenizeForDup (cleanForDup ops it.text)) references 3 then
        auxAppendLoop ops mid references merged rest
      else auxAppendLoop ops mid references (merged ++ [{it with is_aux := true}]) rest
    else auxAppendLoop ops mid references (merged ++ [{it with is_aux := true}]) rest

/-- `MergeShownItems` (lines 739-777): up to `max` primary items in source
order, then — if fewer than `min` were collected and supplementary items
exist — near-duplicate-filtered supplementary items up to `mid` total. -/
def mergeShownItems (ops : TextOps) (shrink : Bool)
    (items subItems : List Item) : List Item :=
  if (items.take (maxShownItems shrink)).length < minShownItems shrink ∧ subItems ≠ [] then
    auxAppendLoop ops (midShownItems shrink)
      (referencesOf ops (items.take (maxShownItems shrink)))
      (items.take (maxShownItems shrink)) subItems
  else items.take (maxShownItems shrink)

/-- `is_major_word` (`MakeMainEntry` line 483). -/
def isMajorWord (e : Entry) : Bool :=
  decide (mkRat 1 100000 ≤ probOf e) && !containsUpper e.word

/-- The `main_labels` set of `MakeMainEntry` (lines 506-512): labels of
any item (translation markers included) that are in the preferable set, as
a duplicate-free list in first-occurrence order. -/
def entryMainLabels (preferable : List String) (e : Entry) : List String :=
  (((e.item.map (·.label)).filter (preferable.contains ·))).eraseDups

/-- The item partition of `MakeMainEntry` (lines 551-561): translation
markers, items of the chosen label, and supplementary items (other main
labels, major words only, no over-long token), in source order. -/
def partitionItems (ops : TextOps) (mainLabels : List String)
    (bestLabel : Option String) (isMajor : Bool) (items : List Item) :
    List Item × List Item × List Item :=
  items.foldl
    (fun acc it =>
      if textIsTranslation it.text then (acc.1, acc.2.1, acc.2.2 ++ [it])
      else if bestLabel = some it.label then (acc.1 ++ [it], acc.2.1, acc.2.2)
      else if mainLabels.contains it.label && isMajor && !ops.hasLongToken it.text then
        (acc.1, acc.2.1 ++ [it], acc.2.2)
      else acc)
    ([], [], [])

/-- The substitution chain of `MakeMainEntry` (lines 563-566): primary
items, else supplementary items, else translation-marker items. -/
def chosenItems (prim subs trs : List Item) : List Item :=
  if prim ≠ [] then prim else if subs ≠ [] then subs else trs

/-- The item selection of `MakeMainEntry` (lines 551-567): partition, then
the substitution chain; `none` when all three groups are empty (the silent
`return` of line 567 that drops the entry).  The second component is the
original supplementary list, passed on to `MergeShownItems`. -/
def selectShownItems (ops : TextOps) (preferable : List String)
    (bestLabel : Option String) (e : Entry) : Option (List Item × List Item) :=
  match partitionItems ops (entryMainLabels preferable e) bestLabel (isMajorWord e) e.item with
  | (prim, subs, trs) =>
    if chosenItems prim subs trs = [] then none else some (chosenItems prim subs trs, subs)

/-- The item list an entry contributes to the page (`MakeMainEntry`
lines 551-568): `none` when the entry is dropped before any output, else
the merged bounded list. -/
def shownItems (ops : TextOps) (preferable : List String)
    (bestLabel : Option String) (shrink : Bool) (e : Entry) : Option (List Item) :=
  (selectShownItems ops preferable bestLabel e).map fun pr =>
    mergeShownItems ops shrink pr.1 pr.2

/-- The global inflection-probability map of `MakeMain` (`infl_probs`,
lines 425-442). -/
abbrev InflMap := String → Option (ℚ × String)

/-- The inflection strings one entry contributes (`MakeMain`
lines 433-439): every inflection field value, split on commas, stripped,
empty strings dropped, in field order. -/
def inflStrings (e : Entry) : List String :=
  inflectionNames.flatMap fun nm =>
    match e.inflFields.lookup nm with
    | none => []
    | some v =>
      if v = "" then [] else ((splitOnChar ',' v).map trimString).filter (· ≠ "")

/-- One map update (`MakeMain` lines 440-442): record `(prob, word)` for
`infl` unless an entry with strictly higher probability was already
seen. -/
def inflUpdate (m : InflMap) (p : ℚ) (w : String) (infl : String) : InflMap :=
  match m infl with
  | none => fun k => if k = infl then some (p, w) else m k
  | some old =>
    if old.1 < p then (fun k => if k = infl then some (p, w) else m k) else m

/-- The effect of one `inflUpdate` at the updated key: keep the old pair
unless the new probability is strictly higher (or no pair was seen). -/
def mergeOne (o : Option (ℚ × String)) (p : ℚ) (w : String) : Option (ℚ × String) :=
  match o with
  | none => some (p, w)
  | some old => if old.1 < p then some (p, w) else some old

/-- All map updates contributed by one entry (`MakeMain` lines 430-442).
Note that here the source reads `entry["probability"]` directly; a missing
field still reads as 0 in this model. -/
def addEntryInfls (m : InflMap) (e : Entry) : InflMap :=
  (inflStrings e).foldl (fun m i => inflUpdate m (probOf e) e.word i) m

/-- The pre-pass over all raw entries (`MakeMain` lines 425-442), run
before any per-word attachment. -/
def buildInflProbs (entries : List Entry) : InflMap :=
  entries.foldl addEntryInfls fun _ => none

/-- The `inflections` map (`MakeMain` lines 443-445): each inflection
string mapped to the governing word of its best-probability pair. -/
def inflectionsOf (entries : List Entry) : String → Option String :=
  fun k => (buildInflProbs entries k).map (·.2)

/-- The `(probability, word)` pairs recorded for `infl` across `entries`,
one per contributing entry, in pass order. -/
def inflContributions (entries : List Entry) (infl : String) : List (ℚ × String) :=
  entries.flatMap fun e =>
    if infl ∈ inflStrings e then [(probOf e, e.word)] else []

/-- `r` is a highest-probability element of `contribs` (ties keep the
first one seen), or `contribs` is empty and `r` is `none`. -/
def IsBestPair (contribs : List (ℚ × String)) : Option (ℚ × String) → Prop
  | none => contribs = []
  | some pw => pw ∈ contribs ∧ ∀ q ∈ contribs, q.1 ≤ pw.1

/-- The `poses`/`sub_poses` split of `MakeMainEntry` (lines 484-492):
parts of speech of the first ten items, split by supplement labels, with
the supplement side used only when the main side is empty. -/
def entryPosesSplit (supplement : List String) (e : Entry) : List String :=
  let first := e.item.take 10
  let poses := (first.filter fun i => !supplement.contains i.label).map (·.pos)
  let subPoses := (first.filter fun i => supplement.contains i.label).map (·.pos)
  if poses = [] then subPoses else poses

/-- The flattened `infl_groups` triples `(pos, kind, value)` of
`MakeMainEntry` (lines 493-505): suppressed entirely for words with two
uppercase letters, restricted to parts of speech present in the entry's
items, with the display kind derived from the attribute name. -/
def inflGroupTriples (supplement : List String) (e : Entry) :
    List (String × String × String) :=
  if hasTwoUpper e.word then []
  else
    INFLECTIONS.flatMap fun attrList =>
      attrList.filterMap fun nl =>
        match splitOnChar '_' nl.1 with
        | [] => none
        | pos :: sfx =>
          if (entryPosesSplit supplement e).contains pos then
            match e.inflFields.lookup nl.1 with
            | none => none
            | some v =>
              if v = "" then none
              else
                let kind :=
                  if nl.1 = "verb_singular" then "present 3ps"
                  else String.intercalate " " sfx
                some (pos, kind, v)
          else none

/-- The `(kind, infl)` pairs actually attached for an entry
(`MakeMainEntry` lines 574-581): each comma chunk of each group value,
stripped, kept only when the global map attributes it to this word. -/
def attachedInflPairs (supplement : List String) (e : Entry)
    (inflections : String → Option String) : List (String × String) :=
  (inflGroupTriples supplement e).flatMap fun t =>
    ((splitOnChar ',' t.2.2).map trimString).filterMap fun infl =>
      if infl = "" then none
      else if inflections infl = some e.word then some (t.2.1, infl) else none

/-- The break test of `MakeMainEntryParentItem` (lines 671-674): the entry
carries a share below 0.5 (capitalized word) or 0.25. -/
def glossStop (e : Entry) : Bool :=
  match e.share with
  | some s => decide (s < if containsUpper e.word then mkRat 1 2 else mkRat 1 4)
  | none => false

/-- The gloss text of one parent entry (lines 675-680): the first four
translations joined, else the first item's cleaned text.  The source
indexes `entry["item"][0]`; an entry with no items is modelled as an empty
text (which emits nothing). -/
def glossText (ops : TextOps) (e : Entry) : String :=
  if e.translation ≠ [] then String.intercalate ", " (e.translation.take 4)
  else
    match e.item with
    | [] => ""
    | i :: _ => ops.stripAnnot i.text

/-- The gloss one parent entry emits (lines 675-685): `none` when the text
comes out empty (`if text:`), else the `(word, text)` pair rendered in the
`[語幹]` block. -/
def glossOf (ops : TextOps) (e : Entry) : Option (String × String) :=
  let t := glossText ops e
  if t = "" then none else some (e.word, t)

/-- The entry walk of `MakeMainEntryParentItem` (lines 670-685). -/
def glossLoop (ops : TextOps) : List Entry → List (String × String)
  | [] => []
  | e :: rest =>
    if glossStop e then []
    else
      match glossOf ops e with
      | none => glossLoop ops rest
      | some g => g :: glossLoop ops rest

/-- `MakeMainEntryParentItem` (lines 666-685): look up the parent key; a
missing record emits nothing, else walk its entries in stored order. -/
def parentGlosses (ops : TextOps) (store : String → Option (List Entry))
    (parent : String) : List (String × String) :=
  match store parent with
  | none => []
  | some es => glossLoop ops es

/-- The break test of the per-key render loop of `MakeMain`
(lines 462-465): the entry carries a share below 0.3 (word with an
uppercase letter) or 0.2. -/
def shareStop (e : Entry) : Bool :=
  match e.share with
  | some s => decide (s < if containsUpper e.word then mkRat 3 10 else mkRat 1 5)
  | none => false

/-- The entries of one key that are handed to `MakeMainEntry`
(`MakeMain` lines 461-466): stored order, stopping at the first entry
whose share falls below the threshold. -/
def renderedEntries : List Entry → List Entry
  | [] => []
  | e :: rest => if shareStop e then [] else e :: renderedEntries rest

/-- A concrete `TextOps` instance used in examples.  On the ASCII inputs
appearing below it agrees with the source regexes (Latin characters are
the ASCII letters, safe text is printable ASCII without backslash, braces
and backtick, annotations/parentheses are absent from the texts used, and
word tokens are separated by single spaces); the tokenizer, an external
dependency, is modelled as whitespace splitting. -/
def plainOps : TextOps where
  isLatinChar := fun c => c.isAlpha
  startsUpperPunctSymDigit := fun w =>
    (splitOnChar ' ' w).any fun t =>
      match t.data with
      | [] => false
      | c :: _ =>
        c.isUpper || c.isDigit ||
          (0x21 ≤ c.toNat && c.toNat ≤ 0x7E && !c.isAlpha && !c.isDigit)
  checkSafeText := fun t =>
    t.data.all fun c =>
      0x20 ≤ c.toNat && c.toNat ≤ 0x7F &&
        c.toNat ≠ 0x5C && c.toNat ≠ 0x7B && c.toNat ≠ 0x7D && c.toNat ≠ 0x60
  stripAnnot := id
  stripParens := id
  stripBrackets := id
  latinSpaces := fun s => (splitOnChar ' ' s).length - 1
  tokenizeForDup := fun s => (splitOnChar ' ' s).filter (· ≠ "")
  hasLongToken := fun s => (splitOnChar ' ' s).any fun t => 20 ≤ t.length

/-- The default thresholds of `main()` (lines 793-796). -/
def admCfg0 : AdmissionConfig :=
  { trustableLabels := []
    minProbNormal := mkRat 1 10000000
    minProbCapital := mkRat 1 1000000
    minProbMulti := mkRat 1 1000000
    sufficientProb := mkRat 1 100000 }

/-- The default label sets of `main()` (lines 785-788), restricted to the
best and vetted labels. -/
def rankCfg0 : RankConfig :=
  { bestLabels := ["xa"], vettedLabels := ["wn"], preferableLabels := ["xa", "wn"] }

/-- An empty store: every point lookup misses. -/
def emptyStore : String → Option (List Entry) := fun _ => none

/-- Example phrase entry for the phrasal-verb rule: `"look up"` with a
noun (not verb) part of speech and a probability between the multi-token
floor and the sufficient threshold. -/
def lookUpEntry : Entry :=
  { word := "look up"
    probability := some (mkRat 1 500000)
    item := [{ pos := "noun", label := "aa", text := "a quick search" }] }

/-- Example phrase entry identical to `lookUpEntry` but carrying a verb
part of speech. -/
def lookUpVerbEntry : Entry :=
  { word := "look up"
    probability := some (mkRat 1 500000)
    item := [{ pos := "verb", label := "aa", text := "to search" }] }

/-- Example parent entry recording `"child"` as its plural. -/
def parentOfChild : Entry :=
  { word := "children base"
    probability := some (mkRat 1 10)
    item := [{ pos := "noun", label := "aa", text := "base word" }]
    inflFields := [("noun_plural", "child")] }

/-- Example child entry with two parent keys; the second is missing from
the store. -/
def childEntry : Entry :=
  { word := "child"
    probability := some (mkRat 1 500000)
    item := [{ pos := "noun", label := "aa", text := "x" },
             { pos := "noun", label := "bb", text := "y" }]
    parent := ["par1", "par2"] }

/-- A store holding only the first parent key of `childEntry`. -/
def childStore : String → Option (List Entry) :=
  fun k => if k = "par1" then some [parentOfChild] else none

/-- Example entry with a single preferable-label item, used for the merge
bounds. -/
def alphaEntry : Entry :=
  { word := "alpha"
    probability := some (mkRat 1 1)
    item := [{ pos := "noun", label := "wn", text := "first sense" }] }

/-- Primary items for the dedup example. -/
def dedupPrim : List Item :=
  [{ pos := "noun", label := "wn", text := "alpha beta gamma" }]

/-- Supplementary items for the dedup example: a text sharing no token
with the reference. -/
def dedupSubs : List Item :=
  [{ pos := "noun", label := "xa", text := "delta epsilon zeta" }]

/-- Items of a plain (neither best nor vetted) label `"zz"`: two
qualifying nine-word texts and one translation marker whose text fails the
safe-character check (it contains a non-ASCII ellipsis). -/
def zzItems : List Item :=
  [{ pos := "noun", label := "zz", text := "w w w w w w w w w" },
   { pos := "noun", label := "zz", text := "w w w w w w w w w" },
   { pos := "noun", label := "zz", text := "[translation]: …" }]

/-- Five nine-word items of the best label `"xa"`. -/
def bestItems : List Item :=
  List.replicate 5 { pos := "noun", label := "xa", text := "w w w w w w w w w" }

/-- Three twenty-word items of the vetted label `"wn"`. -/
def vettedItems : List Item :=
  List.replicate 3
    { pos := "noun", label := "wn", text := "w w w w w w w w w w w w w w w w w w w w" }

/-- Items of two labels with distinct costs: the best label `"xa"` beats
the plain label `"zz"` on the same item profile. -/
def uniqItems : List Item :=
  [{ pos := "noun", label := "xa", text := "w w w w w w w w w" },
   { pos := "noun", label := "zz", text := "w w w w w w w w w" }]

/-- Two single-item labels `"aa"` and `"bb"` with identical item profiles,
hence identical costs. -/
def twinItems : List Item :=
  [{ pos := "noun", label := "aa", text := "w w w w w w w w w" },
   { pos := "noun", label := "bb", text := "w w w w w w w w w" }]

/-- Entry recording `"ran"` as past tense of `"run"` at probability
0.01. -/
def runEntry : Entry :=
  { word := "run"
    probability := some (mkRat 1 100)
    item := [{ pos := "verb", label := "wn", text := "move fast" }]
    inflFields := [("verb_past", "ran")] }

/-- Entry recording `"ran"` as plural of the head word `"ran2"` at
probability 0.001. -/
def ran2Entry : Entry :=
  { word := "ran2"
    probability := some (mkRat 1 1000)
    item := [{ pos := "noun", label := "wn", text := "other" }]
    inflFields := [("noun_plural", "ran")] }

/-- The two-entry pass for the `"ran"` scenario. -/
def ranEntries : List Entry := [runEntry, ran2Entry]

/-- A capitalized parent entry above the 0.5 share threshold with no
translations and an empty first item text. -/
def blankStemEntry : Entry :=
  { word := "Stem"
    share := some (mkRat 3 5)
    item := [{ pos := "noun", label := "wn", text := "" }] }

/-- Store for the empty-gloss example. -/
def blankStemStore : String → Option (List Entry) :=
  fun k => if k = "stem" then some [blankStemEntry] else none

/-- Parent entries with shares 0.6, 0.3, 0.1 under capitalized words. -/
def stemShareEntries : List Entry :=
  [{ word := "Alpha", share := some (mkRat 3 5), translation := ["x1", "x2"],
     item := [{ pos := "noun", label := "wn", text := "ta" }] },
   { word := "Beta", share := some (mkRat 3 10), translation := ["y1"],
     item := [{ pos := "noun", label := "wn", text := "tb" }] },
   { word := "Gamma", share := some (mkRat 1 10), translation := ["z1"],
     item := [{ pos := "noun", label := "wn", text := "tc" }] }]

/-- Store for the share-threshold gloss scenario. -/
def stemShareStore : String → Option (List Entry) :=
  fun k => if k = "stem2" then some stemShareEntries else none

/-- An entry whose only item belongs to a preferable label different from
the chosen one: its primary group is empty, its supplementary group is
not. -/
def subOnlyEntry : Entry :=
  { word := "alpha"
    probability := some (mkRat 1 1)
    item := [{ pos := "noun", label := "xa", text := "supplementary sense" }] }

/-- Entries of one key: one rendered entry, then one below the share
floor, then one that would pass again. -/
def shareKeyEntries : List Entry :=
  [{ word := "beta", share := some (mkRat 7 10),
     item := [{ pos := "noun", label := "wn", text := "b1" }] },
   { word := "beta", share := some (mkRat 1 10),
     item := [{ pos := "noun", label := "wn", text := "b2" }] },
   { word := "beta", share := some (mkRat 9 10),
     item := [{ pos := "noun", label := "wn", text := "b3" }] }]

theorem auxAppendLoop_length_le (ops : TextOps) (mid : Nat)
    (refs : List (List String)) :
    ∀ (subs merged : List Item), merged.length ≤ mid →
      (auxAppendLoop ops mid refs merged subs).length ≤ mid := by
  intro subs
  induction subs with
  | nil => intro merged h; exact h
  | cons it rest ih =>
    intro merged h
    unfold auxAppendLoop
    split
    · exact h
    · rename_i hmid
      have hstep : (merged ++ [{it with is_aux := true}]).length ≤ mid := by
        have := Nat.lt_of_not_le hmid
        simp only [List.length_append, List.length_singleton]
        omega
      split
      · exact ih merged h
      · split
        · split
          · exact ih merged h
          · split
            · exact ih merged h
            · exact ih _ hstep
        · exact ih _ hstep

theorem auxAppendLoop_length_ge (ops : TextOps) (mid : Nat)
    (refs : List (List String)) :
    ∀ (subs merged : List Item),
      merged.length ≤ (auxAppendLoop ops mid refs merged subs).length := by
  intro subs
  induction subs with
  | nil => intro merged; exact Nat.le_refl _
  | cons it rest ih =>
    intro merged
    unfold auxAppendLoop
    split
    · exact Nat.le_refl _
    · split
      · exact ih merged
      · split
        · split
          · exact ih merged
          · split
            · exact ih merged
            · calc merged.length ≤ (merged ++ [{it with is_aux := true}]).length := by
                    simp
                _ ≤ _ := ih _
        · calc merged.length ≤ (merged ++ [{it with is_aux := true}]).length := by simp
            _ ≤ _ := ih _

theorem mergeShownItems_length_bounds (ops : TextOps) (shrink : Bool)
    (items subs : List Item) (h : items ≠ []) :
    1 ≤ (mergeShownItems ops shrink items subs).length ∧
      (mergeShownItems ops shrink items subs).length ≤ maxShownItems shrink := by
  have hmax : 1 ≤ maxShownItems shrink := by cases shrink <;> decide
  have hmidmax : midShownItems shrink ≤ maxShownItems shrink := by
    cases shrink <;> decide
  have htake1 : 1 ≤ (items.take (maxShownItems shrink)).length := by
    rw [List.length_take]
    have : 1 ≤ items.length := List.length_pos.mpr h
    omega
  unfold mergeShownItems
  split
  · rename_i hcond
    constructor
    · exact le_trans htake1 (auxAppendLoop_length_ge _ _ _ _ _)
    · refine le_trans (auxAppendLoop_length_le _ _ _ _ _ ?_) hmidmax
      exact le_trans (Nat.le_of_lt hcond.1) (by cases shrink <;> decide)
  · constructor
    · exact htake1
    · rw [List.length_take]; omega

/-- Claim C1: for every entry that reaches the render stage, the merged
item list is non-empty and at most 8 items long with the shrink flag, 10
without; an entry whose substitution chain comes up empty is dropped with
no output at all. -/
theorem rendered_items_bounds (ops : TextOps) (preferable : List String)
    (bestLabel : Option String) (shrink : Bool) (e : Entry) :
    (∀ out, shownItems ops preferable bestLabel shrink e = some out →
      1 ≤ out.length ∧ out.length ≤ (if shrink then 8 else 10)) ∧
    (selectShownItems ops preferable bestLabel e = none →
      shownItems ops preferable bestLabel shrink e = none) := by
  constructor
  · intro out hout
    unfold shownItems at hout
    cases hsel : selectShownItems ops preferable bestLabel e with
    | none => rw [hsel] at hout; simp at hout
    | some pr =>
      rw [hsel] at hout
      simp only [Option.map_some', Option.some.injEq] at hout
      have hne : pr.1 ≠ [] := by
        unfold selectShownItems at hsel
        rcases hmatch :
            partitionItems ops (entryMainLabels preferable e) bestLabel (isMajorWord e)
              e.item with ⟨prim, subs2, trs⟩
        rw [hmatch] at hsel
        simp only at hsel
        split at hsel
        · exact absurd hsel (by simp)
        · rename_i hits
          injection hsel with hpr
          subst hpr
          exact hits
      have := mergeShownItems_length_bounds ops shrink pr.1 pr.2 hne
      rw [hout] at this
      simpa [maxShownItems] using this
  · intro hsel
    unfold shownItems
    rw [hsel]
    rfl

/-- Witness for C1 at a one-item entry in non-shrink mode. -/
theorem rendered_items_bounds_witness :
    1 ≤ ([{ pos := "noun", label := "wn", text := "first sense" }] : List Item).length ∧
      ([{ pos := "noun", label := "wn", text := "first sense" }] : List Item).length ≤
        (if false then 8 else 10) :=
  (rendered_items_bounds plainOps ["wn"] (some "wn") false alphaEntry).1 _ (by decide)

theorem computeNGramPrecision_nil_refs (c : List String) (n : Nat) :
    computeNGramPrecision c [] n = 0 := by
  unfold computeNGramPrecision
  split
  · rfl
  · simp

theorem auxAppendLoop_mem (ops : TextOps) (mid : Nat)
    (refs : List (List String)) (base : List Item) :
    ∀ (subs merged : List Item),
      (∀ x ∈ merged,
        x ∈ base ∨
          computeNGramPrecision (ops.tokenizeForDup (cleanForDup ops x.text)) refs 3 <
            maxDupScore) →
      ∀ x ∈ auxAppendLoop ops mid refs merged subs,
        x ∈ base ∨
          computeNGramPrecision (ops.tokenizeForDup (cleanForDup ops x.text)) refs 3 <
            maxDupScore := by
  intro subs
  induction subs with
  | nil => intro merged hm x hx; exact hm x hx
  | cons it rest ih =>
    intro merged hm x
    unfold auxAppendLoop
    split
    · exact hm x
    · split
      · exact ih merged hm x
      · split
        · split
          · exact ih merged hm x
          · split
            · exact ih merged hm x
            · rename_i hscore
              refine ih _ ?_ x
              intro y hy
              rcases List.mem_append.mp hy with hy | hy
              · exact hm y hy
              · right
                have hyeq : y = {it with is_aux := true} := by simpa using hy
                subst hyeq
                exact lt_of_not_le hscore
        · rename_i hrefs
          have hrefs' : refs = [] := by
            by_contra hne
            exact hrefs hne
          refine ih _ ?_ x
          intro y hy
          rcases List.mem_append.mp hy with hy | hy
          · exact hm y hy
          · right
            rw [hrefs', computeNGramPrecision_nil_refs]
            decide

/-- Claim C3: a supplementary item whose tokenized text reaches n-gram
precision 0.3 against the reference set built from the selected primary
items is never part of the merged output; everything in the output is
either a primary item or scores strictly below `max_dup_score`. -/
theorem mergeShownItems_dedup (ops : TextOps) (shrink : Bool)
    (items subs : List Item) (x : Item)
    (hx : x ∈ mergeShownItems ops shrink items subs) :
    x ∈ items.take (maxShownItems shrink) ∨
      computeNGramPrecision (ops.tokenizeForDup (cleanForDup ops x.text))
        (referencesOf ops (items.take (maxShownItems shrink))) 3 < maxDupScore := by
  unfold mergeShownItems at hx
  split at hx
  · exact auxAppendLoop_mem ops (midShownItems shrink)
      (referencesOf ops (items.take (maxShownItems shrink)))
      (items.take (maxShownItems shrink)) subs (items.take (maxShownItems shrink))
      (fun y hy => Or.inl hy) x hx
  · exact Or.inl hx

/-- Witness for C3: the appended auxiliary item of the dedup example
scores below the duplicate threshold against the reference set. -/
theorem mergeShownItems_dedup_witness :
    ({ pos := "noun", label := "xa", text := "delta epsilon zeta", is_aux := true } : Item) ∈
        mergeShownItems plainOps false dedupPrim dedupSubs ∧
      (({ pos := "noun", label := "xa", text := "delta epsilon zeta", is_aux := true } : Item) ∈
          dedupPrim.take (maxShownItems false) ∨
        computeNGramPrecision
            (plainOps.tokenizeForDup
              (cleanForDup plainOps "delta epsilon zeta"))
            (referencesOf plainOps (dedupPrim.take (maxShownItems false))) 3 <
          maxDupScore) :=
  ⟨by decide, mergeShownItems_dedup plainOps false dedupPrim dedupSubs _ (by decide)⟩

/-- Claim C7: the substitution chain of the item selection: primary items
if any, else supplementary items, else translation-marker items, else the
entry is dropped with nothing rendered. -/
theorem selectShownItems_chain (ops : TextOps) (preferable : List String)
    (bestLabel : Option String) (shrink : Bool) (e : Entry)
    (prim subs trs : List Item)
    (hpart : partitionItems ops (entryMainLabels preferable e) bestLabel
      (isMajorWord e) e.item = (prim, subs, trs)) :
    (prim ≠ [] → selectShownItems ops preferable bestLabel e = some (prim, subs)) ∧
    (prim = [] → subs ≠ [] →
      selectShownItems ops preferable bestLabel e = some (subs, subs)) ∧
    (prim = [] → subs = [] → trs ≠ [] →
      selectShownItems ops preferable bestLabel e = some (trs, subs)) ∧
    (prim = [] → subs = [] → trs = [] →
      selectShownItems ops preferable bestLabel e = none ∧
        shownItems ops preferable bestLabel shrink e = none) := by
  have hsel : selectShownItems ops preferable bestLabel e =
      (if chosenItems prim subs trs = [] then none
       else some (chosenItems prim subs trs, subs)) := by
    unfold selectShownItems
    rw [hpart]
  refine ⟨?_, ?_, ?_, ?_⟩
  · intro hp
    rw [hsel]
    simp [chosenItems, hp]
  · intro hp hs
    rw [hsel]
    simp [chosenItems, hp, hs]
  · intro hp hs ht
    rw [hsel]
    simp [chosenItems, hp, hs, ht]
  · intro hp hs ht
    have hnone : selectShownItems ops preferable bestLabel e = none := by
      rw [hsel]
      simp [chosenItems, hp, hs, ht]
    exact ⟨hnone, by unfold shownItems; rw [hnone]; rfl⟩

/-- Witness for C7: an entry with no primary items falls back to its
supplementary items. -/
theorem selectShownItems_chain_witness :
    selectShownItems plainOps ["xa"] (some "wn") subOnlyEntry =
      some ([{ pos := "noun", label := "xa", text := "supplementary sense" }],
        [{ pos := "noun", label := "xa", text := "supplementary sense" }]) :=
  ((selectShownItems_chain plainOps ["xa"] (some "wn") false subOnlyEntry []
      [{ pos := "noun", label := "xa", text := "supplementary sense" }] []
      (by decide)).2.1) rfl (by decide)

/-- Claim C10: per key, entries are rendered in stored order and the first
entry whose share is below 0.2 (0.3 with an uppercase letter in the word)
stops the key; it and everything after it produce no output. -/
theorem renderedEntries_share_stop :
    (∀ (pre : List Entry) (e : Entry) (post : List Entry),
      (∀ x ∈ pre, shareStop x = false) → shareStop e = true →
        renderedEntries (pre ++ e :: post) = pre) ∧
    (∀ l : List Entry, renderedEntries l = l.takeWhile fun x => !shareStop x) := by
  constructor
  · intro pre
    induction pre with
    | nil =>
      intro e post _ he
      rw [List.nil_append]
      unfold renderedEntries
      rw [he]
      simp
    | cons q qs ih =>
      intro e post hpre he
      have hq : shareStop q = false := hpre q (by simp)
      show renderedEntries (q :: (qs ++ e :: post)) = q :: qs
      unfold renderedEntries
      rw [hq]
      simp only [Bool.false_eq_true, if_false, List.cons.injEq, true_and]
      exact ih e post (fun x hx => hpre x (by simp [hx])) he
  · intro l
    induction l with
    | nil => rfl
    | cons e rest ih =>
      unfold renderedEntries
      cases he : shareStop e with
      | true => simp [List.takeWhile, he]
      | false => simp [List.takeWhile, he, ih]

/-- Witness for C10: the 0.1-share entry stops its key; the entry after it
is also dropped even though its share would pass. -/
theorem renderedEntries_share_stop_witness :
    renderedEntries shareKeyEntries =
      [{ word := "beta", share := some (mkRat 7 10),
         item := [{ pos := "noun", label := "wn", text := "b1" }] }] :=
  renderedEntries_share_stop.1
    [{ word := "beta", share := some (mkRat 7 10),
       item := [{ pos := "noun", label := "wn", text := "b1" }] }]
    { word := "beta", share := some (mkRat 1 10),
      item := [{ pos := "noun", label := "wn", text := "b2" }] }
    [{ word := "beta", share := some (mkRat 9 10),
       item := [{ pos := "noun", label := "wn", text := "b3" }] }]
    (by decide) (by decide)

theorem parentLoop_missing (word : String) (store : String → Option (List Entry)) :
    ∀ (pre : List String) (p : String) (rest : List String),
      (∀ q ∈ pre,
        ((store q).map fun qes => qes.any (parentEntryAdmits word)) = some false) →
      store p = none →
      parentLoop word store (pre ++ p :: rest) = some false := by
  intro pre
  induction pre with
  | nil =>
    intro p rest _ hmiss
    show parentLoop word store (p :: rest) = some false
    unfold parentLoop
    rw [hmiss]
  | cons q qs ih =>
    intro p rest hpre hmiss
    have hq := hpre q (by simp)
    rcases Option.map_eq_some'.mp hq with ⟨qes, hqes, hany⟩
    show parentLoop word store (q :: (qs ++ p :: rest)) = some false
    unfold parentLoop
    rw [hqes]
    simp only [hany, Bool.false_eq_true, if_false]
    exact ih p rest (fun x hx => hpre x (by simp [hx])) hmiss

/-- Claim C5: an entry reaching the parent-exception rule whose parent-key
lookup misses is rejected at once: no remaining parent key is consulted
and rules 9-12 are never evaluated (the result is `false` whatever they
would say). -/
theorem missingParent_rejects (cfg : AdmissionConfig) (ops : TextOps)
    (store : String → Option (List Entry)) (keywords : List String) (e : Entry)
    (pre : List String) (p : String) (rest : List String)
    (h15 : rules1to5 cfg ops keywords e = none)
    (h6 : rule6Fires keywords e = false)
    (h7 : rule7Fires e = false)
    (hpar : e.parent = pre ++ p :: rest)
    (hpre : ∀ q ∈ pre,
      ((store q).map fun qes => qes.any (parentEntryAdmits e.word)) = some false)
    (hmiss : store p = none) :
    IsGoodEntry cfg ops store keywords e = false := by
  have hloop : parentLoop e.word store e.parent = some false := by
    rw [hpar]
    exact parentLoop_missing e.word store pre p rest hpre hmiss
  unfold IsGoodEntry
  rw [h15]
  simp only [h6, h7, Bool.false_eq_true, if_false]
  rw [hloop]

/-- Witness for C5: `childEntry` would be admitted by rule 12 (two
corroborating labels, no other reject), yet the missing second parent key
rejects it. -/
theorem missingParent_rejects_witness :
    rules9to12 plainOps childEntry = true ∧
      IsGoodEntry admCfg0 plainOps childStore ["look"] childEntry = false :=
  ⟨by decide,
    missingParent_rejects admCfg0 plainOps childStore ["look"] childEntry
      ["par1"] "par2" [] (by decide) (by decide) (by decide) (by decide)
      (by decide) (by decide)⟩

/-- Claim C6 fails as stated: `lookUpEntry` satisfies every condition the
claim lists (rules 1-5 undecided, all-lowercase, two space-separated
tokens, head token in the allow-list, trailing token a known particle),
yet admission rejects it, because rule 6 additionally requires a verb part
of speech (`"verb" in poses`, line 383) which this entry lacks; the entry
then falls through to the multi-token reject of rule 10. -/
theorem phrasalVerb_counterexample :
    rules1to5 admCfg0 plainOps ["look"] lookUpEntry = none ∧
    isLowerSpaceWord lookUpEntry.word = true ∧
    splitOnChar ' ' lookUpEntry.word = ["look", "up"] ∧
    ("look" ∈ (["look"] : List String)) ∧
    ("up" ∈ PARTICLES) ∧
    IsGoodEntry admCfg0 plainOps emptyStore ["look"] lookUpEntry = false := by
  decide

/-- Claim C6 (amended): with the additional condition that the entry's
part-of-speech set contains `"verb"`, the phrasal-verb rule admits: an
entry undecided by rules 1-5 whose word is all lowercase letters and
spaces, splits into at least two tokens with the head in the keyword
allow-list and every trailing token a known particle, is admitted. -/
theorem phrasalVerb_admits (cfg : AdmissionConfig) (ops : TextOps)
    (store : String → Option (List Entry)) (keywords : List String) (e : Entry)
    (t0 t1 : String) (ts : List String)
    (h15 : rules1to5 cfg ops keywords e = none)
    (hverb : (entryPoses e).contains "verb" = true)
    (hlow : isLowerSpaceWord e.word = true)
    (hsplit : splitOnChar ' ' e.word = t0 :: t1 :: ts)
    (hkw : keywords.contains t0 = true)
    (hparts : (t1 :: ts).all (PARTICLES.contains ·) = true) :
    IsGoodEntry cfg ops store keywords e = true := by
  have h6 : rule6Fires keywords e = true := by
    unfold rule6Fires
    rw [hverb, hlow, hsplit]
    simp only [Bool.true_and]
    rw [hkw]
    simpa using hparts
  unfold IsGoodEntry
  rw [h15]
  simp [h6]

/-- Witness for the amended C6: the same phrase with a verb part of speech
is admitted. -/
theorem phrasalVerb_admits_witness :
    IsGoodEntry admCfg0 plainOps emptyStore ["look"] lookUpVerbEntry = true :=
  phrasalVerb_admits admCfg0 plainOps emptyStore ["look"] lookUpVerbEntry
    "look" "up" [] (by decide) (by decide) (by decide) (by decide) (by decide)
    (by decide)

theorem glossLoop_eq_takeWhile (ops : TextOps) :
    ∀ es : List Entry,
      glossLoop ops es =
        (es.takeWhile fun e => !glossStop e).filterMap (glossOf ops) := by
  intro es
  induction es with
  | nil => rfl
  | cons e rest ih =>
    unfold glossLoop
    cases hstop : glossStop e with
    | true => simp [List.takeWhile_cons, hstop]
    | false =>
      cases hg : glossOf ops e with
      | none => simp [List.takeWhile_cons, hstop, List.filterMap_cons, hg, ih]
      | some g => simp [List.takeWhile_cons, hstop, List.filterMap_cons, hg, ih]

/-- Claim C8 fails as stated: `blankStemEntry` has share 0.6, at or above
its capitalized threshold 0.5, so the claim says it emits one gloss (its
first cleaned item text, it has no translations); but that text is empty
and the source's `if text:` (line 681) emits nothing, so the parent block
is empty. -/
theorem parentGloss_counterexample :
    glossStop blankStemEntry = false ∧
    (mkRat 1 2 ≤ mkRat 3 5) ∧
    blankStemEntry.translation = [] ∧
    parentGlosses plainOps blankStemStore "stem" = [] := by
  decide

/-- Claim C8 (amended): parent-gloss attachment walks the parent's raw
entries in stored order up to the first entry whose share is below the
threshold (0.5 for a capitalized entry word, 0.25 otherwise); each walked
entry emits one gloss — its first at most four translations, else its
first cleaned item text — except that an entry whose gloss text comes out
empty emits nothing.  In particular, for shares [0.6, 0.3, 0.1] under
capitalized words only the 0.6-share entry yields a gloss. -/
theorem parentGlosses_walk :
    (∀ (ops : TextOps) (store : String → Option (List Entry)) (p : String)
      (es : List Entry), store p = some es →
        parentGlosses ops store p =
          (es.takeWhile fun e => !glossStop e).filterMap (glossOf ops)) ∧
    parentGlosses plainOps stemShareStore "stem2" = [("Alpha", "x1, x2")] := by
  constructor
  · intro ops store p es hstore
    unfold parentGlosses
    rw [hstore]
    exact glossLoop_eq_takeWhile ops es
  · decide

/-- Witness for the amended C8 at the share-scenario store. -/
theorem parentGlosses_walk_witness :
    parentGlosses plainOps stemShareStore "stem2" =
      (stemShareEntries.takeWhile fun e => !glossStop e).filterMap
        (glossOf plainOps) :=
  parentGlosses_walk.1 plainOps stemShareStore "stem2" stemShareEntries (by decide)

theorem inflUpdate_apply (m : InflMap) (p : ℚ) (w infl k : String) :
    inflUpdate m p w infl k = if k = infl then mergeOne (m infl) p w else m k := by
  unfold inflUpdate mergeOne
  cases heq : m infl with
  | none =>
    by_cases hk : k = infl <;> simp [hk]
  | some old =>
    by_cases hlt : old.1 < p
    · by_cases hk : k = infl <;> simp [hlt, hk]
    · by_cases hk : k = infl
      · simp [hlt, hk, heq]
      · simp [hlt, hk]

theorem mergeOne_idem (o : Option (ℚ × String)) (p : ℚ) (w : String) :
    mergeOne (mergeOne o p w) p w = mergeOne o p w := by
  unfold mergeOne
  cases o with
  | none => simp
  | some old =>
    by_cases hlt : old.1 < p <;> simp [hlt]

theorem foldInflUpdate_apply (p : ℚ) (w : String) :
    ∀ (l : List String) (m : InflMap) (k : String),
      (l.foldl (fun m i => inflUpdate m p w i) m) k =
        if k ∈ l then mergeOne (m k) p w else m k := by
  intro l
  induction l with
  | nil => intro m k; simp
  | cons a t ih =>
    intro m k
    rw [List.foldl_cons, ih]
    by_cases hk : k = a
    · subst hk
      by_cases hmem : k ∈ t
      · simp [hmem, inflUpdate_apply, mergeOne_idem]
      · simp [hmem, inflUpdate_apply]
    · by_cases hmem : k ∈ t
      · simp [hmem, inflUpdate_apply, hk]
      · simp [hmem, inflUpdate_apply, hk]

theorem addEntryInfls_apply (m : InflMap) (e : Entry) (k : String) :
    addEntryInfls m e k =
      if k ∈ inflStrings e then mergeOne (m k) (probOf e) e.word else m k :=
  foldInflUpdate_apply (probOf e) e.word (inflStrings e) m k

theorem isBestPair_mergeOne (c : List (ℚ × String)) (o : Option (ℚ × String))
    (p : ℚ) (w : String) (h : IsBestPair c o) :
    IsBestPair (c ++ [(p, w)]) (mergeOne o p w) := by
  cases o with
  | none =>
    have hc : c = [] := h
    subst hc
    exact ⟨by simp, by simp⟩
  | some pw =>
    obtain ⟨hmem, hmax⟩ := h
    unfold mergeOne
    by_cases hlt : pw.1 < p
    · simp only [hlt, if_true]
      refine ⟨by simp, ?_⟩
      intro q hq
      rcases List.mem_append.mp hq with hq | hq
      · exact le_of_lt (lt_of_le_of_lt (hmax q hq) hlt)
      · simp only [List.mem_singleton] at hq
        subst hq
        exact le_refl _
    · simp only [hlt, if_false]
      refine ⟨List.mem_append.mpr (Or.inl hmem), ?_⟩
      intro q hq
      rcases List.mem_append.mp hq with hq | hq
      · exact hmax q hq
      · simp only [List.mem_singleton] at hq
        subst hq
        exact le_of_not_lt hlt

theorem buildInfl_invariant :
    ∀ (entries : List Entry) (m : InflMap) (C : String → List (ℚ × String)),
      (∀ k, IsBestPair (C k) (m k)) →
      ∀ k, IsBestPair (C k ++ inflContributions entries k)
        (entries.foldl addEntryInfls m k) := by
  intro entries
  induction entries with
  | nil =>
    intro m C hC k
    simpa [inflContributions] using hC k
  | cons e rest ih =>
    intro m C hC k
    have hstep : ∀ k,
        IsBestPair
          (C k ++ (if k ∈ inflStrings e then [(probOf e, e.word)] else []))
          (addEntryInfls m e k) := by
      intro k
      rw [addEntryInfls_apply]
      by_cases hin : k ∈ inflStrings e
      · simp only [hin, if_true]
        exact isBestPair_mergeOne (C k) (m k) (probOf e) e.word (hC k)
      · simpa [hin] using hC k
    have := ih (addEntryInfls m e)
      (fun k => C k ++ (if k ∈ inflStrings e then [(probOf e, e.word)] else []))
      hstep k
    simpa [inflContributions, List.append_assoc] using this

/-- Claim C4: the global pre-pass maps every inflection string to a
highest-probability contributing pair (strict improvements replace, ties
keep the first seen), and the per-word attachment keeps an inflection only
when the global map attributes that exact string to this word. -/
theorem inflectionMap_global :
    (∀ (entries : List Entry) (infl : String),
      IsBestPair (inflContributions entries infl) (buildInflProbs entries infl)) ∧
    (∀ (supplement : List String) (e : Entry)
      (inflections : String → Option String) (kind infl : String),
      (kind, infl) ∈ attachedInflPairs supplement e inflections →
      inflections infl = some e.word) := by
  constructor
  · intro entries infl
    have := buildInfl_invariant entries (fun _ => none) (fun _ => [])
      (fun _ => rfl) infl
    simpa [buildInflProbs] using this
  · intro supplement e inflections kind infl h
    unfold attachedInflPairs at h
    rcases List.mem_flatMap.mp h with ⟨t, _, ht⟩
    rcases List.mem_filterMap.mp ht with ⟨a, _, ha⟩
    by_cases hae : a = ""
    · rw [if_pos hae] at ha
      exact absurd ha (by simp)
    · rw [if_neg hae] at ha
      by_cases hmap : inflections a = some e.word
      · rw [if_pos hmap] at ha
        simp only [Option.some.injEq, Prod.mk.injEq] at ha
        obtain ⟨-, rfl⟩ := ha
        exact hmap
      · rw [if_neg hmap] at ha
        exact absurd ha (by simp)

/-- Witness for C4 at the `"ran"` scenario: the map sends `"ran"` to
`"run"` (probability 0.01 beats 0.001), `"run"` attaches `"ran"`, and the
losing head word attaches nothing. -/
theorem inflectionMap_global_witness :
    inflectionsOf ranEntries "ran" = some "run" ∧
    buildInflProbs ranEntries "ran" = some (mkRat 1 100, "run") ∧
    attachedInflPairs [] ran2Entry (inflectionsOf ranEntries) = [] :=
  ⟨inflectionMap_global.2 [] runEntry (inflectionsOf ranEntries) "past" "ran"
      (by decide),
   by decide, by decide⟩

theorem costScanStep_qualifying (ops : TextOps) (np : Bool) (st : Nat × ℝ)
    (it : Item) (wc : Nat)
    (h1 : textIsTranslation it.text = false)
    (h2 : ops.stripAnnot it.text ≠ "")
    (h3 : ops.latinSpaces (ops.stripAnnot it.text) = wc)
    (h4 : (np || ops.checkSafeText it.text) = true) :
    costScanStep ops np st it =
      (st.1 + 1, st.2 + |Real.log 9 - Real.log ((wc : ℝ) + 1)|) := by
  have hpen : (!np && !ops.checkSafeText it.text) = false := by
    rw [← Bool.not_or, h4]
    rfl
  simp only [costScanStep, hpen, Bool.false_eq_true, if_false, h1, h2, h3]

theorem costScan_uniform (ops : TextOps) (np : Bool) (wc : Nat) :
    ∀ (l : List Item) (st : Nat × ℝ),
      (∀ i ∈ l, textIsTranslation i.text = false ∧
        ops.stripAnnot i.text ≠ "" ∧
        ops.latinSpaces (ops.stripAnnot i.text) = wc ∧
        (np || ops.checkSafeText i.text) = true) →
      l.foldl (costScanStep ops np) st =
        (st.1 + l.length,
          st.2 + (l.length : ℝ) * |Real.log 9 - Real.log ((wc : ℝ) + 1)|) := by
  intro l
  induction l with
  | nil => intro st _; simp
  | cons i t ih =>
    intro st h
    obtain ⟨h1, h2, h3, h4⟩ := h i (by simp)
    rw [List.foldl_cons, costScanStep_qualifying ops np st i wc h1 h2 h3 h4,
      ih _ (fun j hj => h j (by simp [hj]))]
    simp only [Prod.mk.injEq, List.length_cons]
    constructor
    · omega
    · push_cast
      ring

theorem labelCost_uniform (ops : TextOps) (cfg : RankConfig) (isStop : Bool)
    (label : String) (items : List Item) (wc : Nat)
    (hne : items ≠ [])
    (h : ∀ i ∈ items, textIsTranslation i.text = false ∧
      ops.stripAnnot i.text ≠ "" ∧ ops.latinSpaces (ops.stripAnnot i.text) = wc ∧
      ((cfg.bestLabels.contains label || (!isStop && cfg.vettedLabels.contains label)) ||
        ops.checkSafeText i.text) = true) :
    labelCost ops cfg isStop label items =
      some ((|Real.log 5 - Real.log (items.length : ℝ)| + 0.5) *
        (|Real.log 9 - Real.log ((wc : ℝ) + 1)| + 1) *
        (if cfg.bestLabels.contains label then 0.8
         else if !isStop && cfg.vettedLabels.contains label then 1 else 1.25)) := by
  have hlen : items.length ≠ 0 := by
    intro h0
    exact hne (List.length_eq_zero.mp h0)
  have hlenR : (items.length : ℝ) ≠ 0 := Nat.cast_ne_zero.mpr hlen
  simp only [labelCost]
  rw [costScan_uniform ops _ wc items (0, 0) h]
  simp only [Nat.zero_add, zero_add]
  rw [if_neg hlen]
  have hdiv : (items.length : ℝ) *
      (|Real.log 9 - Real.log ((wc : ℝ) + 1)| / (items.length : ℝ)) =
      |Real.log 9 - Real.log ((wc : ℝ) + 1)| := by
    field_simp
  rw [mul_div_assoc, hdiv]

theorem costScanStep_transMarkerPenalty (ops : TextOps) (np : Bool)
    (st : Nat × ℝ) (it : Item)
    (h1 : textIsTranslation it.text = true)
    (h2 : (!np && !ops.checkSafeText it.text) = true) :
    costScanStep ops np st it = (st.1, st.2 + 10) := by
  simp only [costScanStep, h1, h2, if_true]

/-- Claim C2 fails as stated: for the label `"zz"` (neither best nor
vetted) with two qualifying nine-word items and one translation-marker
item failing the safe-character check, the source accumulates the +10
penalty into the same sum as the length terms and divides by the
qualifying count (lengthCost = (0 + 0 + 10)/2 = 5), whereas the claim's
`lengthCost` — the mean of `|ln9 − ln(wordCount)|` over the qualifying
items plus +10 per failing item — gives 0 (both qualifying items are
safe; penalties inside the mean) or 10 (the failing translation item
counted outside the mean); the resulting costs differ in both
readings. -/
theorem labelCost_penalty_mismatch :
    labelCost plainOps rankCfg0 false "zz" zzItems =
      some ((|Real.log 5 - Real.log 2| + 0.5) * (5 + 1) * 1.25) ∧
    (|Real.log 5 - Real.log 2| + 0.5) * ((5 : ℝ) + 1) * 1.25 ≠
      (|Real.log 5 - Real.log 2| + 0.5) * (0 + 1) * 1.25 ∧
    (|Real.log 5 - Real.log 2| + 0.5) * ((5 : ℝ) + 1) * 1.25 ≠
      (|Real.log 5 - Real.log 2| + 0.5) * (10 + 1) * 1.25 := by
  refine ⟨?_, ?_, ?_⟩
  · have hb : rankCfg0.bestLabels.contains "zz" = false := by decide
    have hvv : rankCfg0.vettedLabels.contains "zz" = false := by decide
    have e1 : costScanStep plainOps false ((0 : ℕ), (0 : ℝ))
        { pos := "noun", label := "zz", text := "w w w w w w w w w" } =
        ((1 : ℕ), (0 : ℝ) + |Real.log 9 - Real.log (((8 : ℕ) : ℝ) + 1)|) := by
      rw [costScanStep_qualifying plainOps false _ _ 8
        (by decide) (by decide) (by decide) (by decide)]
    have e2 : costScanStep plainOps false
        ((1 : ℕ), (0 : ℝ) + |Real.log 9 - Real.log (((8 : ℕ) : ℝ) + 1)|)
        { pos := "noun", label := "zz", text := "w w w w w w w w w" } =
        ((2 : ℕ), ((0 : ℝ) + |Real.log 9 - Real.log (((8 : ℕ) : ℝ) + 1)|) +
          |Real.log 9 - Real.log (((8 : ℕ) : ℝ) + 1)|) := by
      rw [costScanStep_qualifying plainOps false _ _ 8
        (by decide) (by decide) (by decide) (by decide)]
    have e3 : costScanStep plainOps false
        ((2 : ℕ), ((0 : ℝ) + |Real.log 9 - Real.log (((8 : ℕ) : ℝ) + 1)|) +
          |Real.log 9 - Real.log (((8 : ℕ) : ℝ) + 1)|)
        { pos := "noun", label := "zz", text := "[translation]: …" } =
        ((2 : ℕ), (((0 : ℝ) + |Real.log 9 - Real.log (((8 : ℕ) : ℝ) + 1)|) +
          |Real.log 9 - Real.log (((8 : ℕ) : ℝ) + 1)|) + 10) := by
      rw [costScanStep_transMarkerPenalty plainOps false _ _ (by decide) (by decide)]
    have hfold : zzItems.foldl (costScanStep plainOps false) ((0 : ℕ), (0 : ℝ)) =
        ((2 : ℕ), (((0 : ℝ) + |Real.log 9 - Real.log (((8 : ℕ) : ℝ) + 1)|) +
          |Real.log 9 - Real.log (((8 : ℕ) : ℝ) + 1)|) + 10) := by
      show List.foldl (costScanStep plainOps false) ((0 : ℕ), (0 : ℝ))
        [{ pos := "noun", label := "zz", text := "w w w w w w w w w" },
         { pos := "noun", label := "zz", text := "w w w w w w w w w" },
         { pos := "noun", label := "zz", text := "[translation]: …" }] = _
      rw [List.foldl_cons, e1, List.foldl_cons, e2, List.foldl_cons, e3,
        List.foldl_nil]
    simp only [labelCost, hb, hvv, Bool.not_false, Bool.true_and, Bool.false_or,
      Bool.or_self]
    rw [hfold]
    have hv0 : |Real.log 9 - Real.log (((8 : ℕ) : ℝ) + 1)| = 0 := by
      push_cast
      norm_num
    rw [hv0]
    norm_num
  · intro h
    have h1 : (0 : ℝ) ≤ |Real.log 5 - Real.log 2| := abs_nonneg _
    nlinarith
  · intro h
    have h1 : (0 : ℝ) ≤ |Real.log 5 - Real.log 2| := abs_nonneg _
    nlinarith

/-- Claim C2 (amended): the cost of a candidate label is
`(itemCost + 0.5) × (lengthCost + 1) × qualityCost` where `lengthCost`
accumulates the per-item `|ln9 − ln(wordCount)|` terms together with the
+10 safe-text penalties — counted for every item of the label, translation
markers included, when the label is neither best nor vetted — and divides
the whole sum by the qualifying item count; the minimum-cost label wins.
For candidate A (5 items of 9 words each, best) versus B (3 items of 20
words each, vetted), cost(A) = 0.4 < cost(B) and A is chosen under either
iteration order of the two-label set. -/
theorem labelRanker_scenario (ops : TextOps) (cfg : RankConfig) (word : String)
    (itemsA itemsB : List Item) (lA lB : String) (order : List String)
    (hAB : lA ≠ lB)
    (hbestA : cfg.bestLabels.contains lA = true)
    (hvetB : cfg.vettedLabels.contains lB = true)
    (hbestB : cfg.bestLabels.contains lB = false)
    (hstop : isStopWord word = false)
    (hlenA : itemsA.length = 5) (hlenB : itemsB.length = 3)
    (hA : ∀ i ∈ itemsA, i.label = lA ∧ textIsTranslation i.text = false ∧
      ops.stripAnnot i.text ≠ "" ∧ ops.latinSpaces (ops.stripAnnot i.text) = 8)
    (hB : ∀ i ∈ itemsB, i.label = lB ∧ textIsTranslation i.text = false ∧
      ops.stripAnnot i.text ≠ "" ∧ ops.latinSpaces (ops.stripAnnot i.text) = 19)
    (horder : order = [lA, lB] ∨ order = [lB, lA]) :
    labelCost ops cfg (isStopWord word) lA itemsA = some 0.4 ∧
    labelCost ops cfg (isStopWord word) lB itemsB =
      some ((|Real.log 5 - Real.log 3| + 0.5) * (|Real.log 9 - Real.log 20| + 1)) ∧
    (0.4 : ℝ) < (|Real.log 5 - Real.log 3| + 0.5) * (|Real.log 9 - Real.log 20| + 1) ∧
    chooseBestLabel ops cfg word (itemsA ++ itemsB) order = some lA := by
  have hneA : itemsA ≠ [] := by
    intro h0; rw [h0] at hlenA; simp at hlenA
  have hneB : itemsB ≠ [] := by
    intro h0; rw [h0] at hlenB; simp at hlenB
  rw [hstop]
  have hcA := labelCost_uniform ops cfg false lA itemsA 8 hneA
    (fun i hi => ⟨(hA i hi).2.1, (hA i hi).2.2.1, (hA i hi).2.2.2, by
      simp only [hbestA, Bool.true_or]⟩)
  have hcB := labelCost_uniform ops cfg false lB itemsB 19 hneB
    (fun i hi => ⟨(hB i hi).2.1, (hB i hi).2.2.1, (hB i hi).2.2.2, by
      simp only [hbestB, hvetB, Bool.not_false, Bool.true_and, Bool.false_or,
        Bool.true_or]⟩)
  rw [hlenA, if_pos hbestA] at hcA
  rw [hlenB] at hcB
  simp only [hbestB, hvetB, Bool.not_false, Bool.true_and, Bool.false_eq_true,
    if_false, if_true] at hcB
  have hcA' : labelCost ops cfg false lA itemsA = some 0.4 := by
    rw [hcA]
    norm_num
  have hcB' : labelCost ops cfg false lB itemsB =
      some ((|Real.log 5 - Real.log 3| + 0.5) * (|Real.log 9 - Real.log 20| + 1)) := by
    rw [hcB]
    norm_num
  have hlt : (0.4 : ℝ) <
      (|Real.log 5 - Real.log 3| + 0.5) * (|Real.log 9 - Real.log 20| + 1) := by
    nlinarith [abs_nonneg (Real.log 5 - Real.log 3),
      abs_nonneg (Real.log 9 - Real.log 20)]
  have hfA : (itemsA ++ itemsB).filter (·.label == lA) = itemsA := by
    rw [List.filter_append]
    have h1 : itemsA.filter (·.label == lA) = itemsA :=
      List.filter_eq_self.mpr (fun i hi => by simp [(hA i hi).1])
    have h2 : itemsB.filter (·.label == lA) = [] :=
      List.filter_eq_nil_iff.mpr (fun i hi => by
        simp [(hB i hi).1, Ne.symm hAB])
    rw [h1, h2, List.append_nil]
  have hfB : (itemsA ++ itemsB).filter (·.label == lB) = itemsB := by
    rw [List.filter_append]
    have h1 : itemsA.filter (·.label == lB) = [] :=
      List.filter_eq_nil_iff.mpr (fun i hi => by
        simp [(hA i hi).1, hAB])
    have h2 : itemsB.filter (·.label == lB) = itemsB :=
      List.filter_eq_self.mpr (fun i hi => by simp [(hB i hi).1])
    rw [h1, h2, List.nil_append]
  refine ⟨hcA', hcB', hlt, ?_⟩
  have hnot : ¬((0.4 : ℝ) = 0 ∨
      (|Real.log 5 - Real.log 3| + 0.5) * (|Real.log 9 - Real.log 20| + 1) < 0.4) := by
    rintro (h | h)
    · norm_num at h
    · exact absurd h (not_lt.mpr hlt.le)
  rcases horder with rfl | rfl
  · simp only [chooseBestLabel, rankLabels, List.foldl_cons, List.foldl_nil, rankStep,
      hstop, hfA, hfB, hcA', hcB']
    rw [if_neg hnot]
    rfl
  · simp only [chooseBestLabel, rankLabels, List.foldl_cons, List.foldl_nil, rankStep,
      hstop, hfA, hfB, hcA', hcB']
    rw [if_pos (Or.inr hlt)]
    rfl

/-- Witness for the amended C2 with concrete items: the best label wins. -/
theorem labelRanker_scenario_witness :
    labelCost plainOps rankCfg0 (isStopWord "example") "xa" bestItems = some 0.4 ∧
    chooseBestLabel plainOps rankCfg0 "example" (bestItems ++ vettedItems)
      ["xa", "wn"] = some "xa" := by
  obtain ⟨h1, -, -, h4⟩ := labelRanker_scenario plainOps rankCfg0 "example"
    bestItems vettedItems "xa" "wn" ["xa", "wn"] (by decide) (by decide)
    (by decide) (by decide) (by decide) (by decide) (by decide) (by decide)
    (by decide) (Or.inl rfl)
  exact ⟨h1, h4⟩

theorem costScanStep_snd_mono (ops : TextOps) (np : Bool) (st : Nat × ℝ)
    (it : Item) : st.2 ≤ (costScanStep ops np st it).2 := by
  simp only [costScanStep]
  split_ifs <;> simp <;>
    nlinarith [abs_nonneg (Real.log 9 -
      Real.log ((ops.latinSpaces (ops.stripAnnot it.text) : ℝ) + 1))]

theorem costScan_snd_nonneg (ops : TextOps) (np : Bool) :
    ∀ (l : List Item) (st : Nat × ℝ), 0 ≤ st.2 →
      0 ≤ (l.foldl (costScanStep ops np) st).2 := by
  intro l
  induction l with
  | nil => intro st h; exact h
  | cons i t ih =>
    intro st h
    rw [List.foldl_cons]
    exact ih _ (le_trans h (costScanStep_snd_mono ops np st i))

theorem labelCost_pos (ops : TextOps) (cfg : RankConfig) (isStop : Bool)
    (label : String) (items : List Item) (c : ℝ)
    (h : labelCost ops cfg isStop label items = some c) : 0 < c := by
  simp only [labelCost] at h
  split at h
  · exact absurd h (by simp)
  · injection h with hc
    rw [← hc]
    have hnn : (0 : ℝ) ≤ (items.foldl
        (costScanStep ops (cfg.bestLabels.contains label ||
          (!isStop && cfg.vettedLabels.contains label))) ((0 : ℕ), (0 : ℝ))).2 :=
      costScan_snd_nonneg _ _ items ((0 : ℕ), (0 : ℝ)) (le_refl 0)
    have h1 : (0 : ℝ) ≤ |Real.log 5 - Real.log ((items.foldl
        (costScanStep ops (cfg.bestLabels.contains label ||
          (!isStop && cfg.vettedLabels.contains label))) ((0 : ℕ), (0 : ℝ))).1 : ℝ)| :=
      abs_nonneg _
    have h2 : (0 : ℝ) ≤ (items.foldl
        (costScanStep ops (cfg.bestLabels.contains label ||
          (!isStop && cfg.vettedLabels.contains label))) ((0 : ℕ), (0 : ℝ))).2 /
        ((items.foldl (costScanStep ops (cfg.bestLabels.contains label ||
          (!isStop && cfg.vettedLabels.contains label))) ((0 : ℕ), (0 : ℝ))).1 : ℝ) :=
      div_nonneg hnn (Nat.cast_nonneg _)
    have h3 : (0 : ℝ) < (if cfg.bestLabels.contains label then (0.8 : ℝ)
        else if !isStop && cfg.vettedLabels.contains label then 1 else 1.25) := by
      split_ifs <;> norm_num
    exact mul_pos (mul_pos (by linarith) (by linarith)) h3

theorem rankFold_keep (cost : String → Option ℝ) (cstar : ℝ) (lstar : String)
    (hc : 0 < cstar) :
    ∀ o : List String, (∀ l ∈ o, ∀ c, cost l = some c → cstar < c) →
      o.foldl (rankStep cost) (some (cstar, lstar)) = some (cstar, lstar) := by
  intro o
  induction o with
  | nil => intro _; rfl
  | cons h t ih =>
    intro hmin
    rw [List.foldl_cons]
    have hstep : rankStep cost (some (cstar, lstar)) h = some (cstar, lstar) := by
      simp only [rankStep]
      cases hch : cost h with
      | none => rfl
      | some ch =>
        dsimp only
        rw [if_neg]
        rintro (h0 | hlt)
        · exact absurd h0 (ne_of_gt hc)
        · exact absurd hlt (not_lt.mpr (le_of_lt (hmin h (by simp) ch hch)))
    rw [hstep]
    exact ih (fun l hl c hc' => hmin l (by simp [hl]) c hc')

theorem rankFold_find (cost : String → Option ℝ)
    (hpos : ∀ l c, cost l = some c → 0 < c) (cstar : ℝ) (lstar : String)
    (hcost : cost lstar = some cstar) :
    ∀ (o : List String) (acc : Option (ℝ × String)), o.Nodup → lstar ∈ o →
      (∀ l ∈ o, l ≠ lstar → ∀ c, cost l = some c → cstar < c) →
      (acc = none ∨ ∃ m b, acc = some (m, b) ∧ cstar < m) →
      o.foldl (rankStep cost) acc = some (cstar, lstar) := by
  intro o
  induction o with
  | nil => intro acc _ hmem; exact absurd hmem (List.not_mem_nil lstar)
  | cons h t ih =>
    intro acc hnd hmem hmin hacc
    rw [List.foldl_cons]
    by_cases hh : h = lstar
    · subst hh
      have hstep : rankStep cost acc h = some (cstar, h) := by
        simp only [rankStep, hcost]
        rcases hacc with rfl | ⟨m, b, rfl, hm⟩
        · rfl
        · dsimp only
          rw [if_pos (Or.inr hm)]
      rw [hstep]
      have hnotin : h ∉ t := (List.nodup_cons.mp hnd).1
      exact rankFold_keep cost cstar h (hpos h cstar hcost) t
        (fun l hl c hc' =>
          hmin l (by simp [hl]) (fun he => hnotin (he ▸ hl)) c hc')
    · have hmem' : lstar ∈ t := by
        rcases List.mem_cons.mp hmem with he | ht
        · exact absurd he.symm hh
        · exact ht
      have hmin' : ∀ l ∈ t, l ≠ lstar → ∀ c, cost l = some c → cstar < c :=
        fun l hl hne c hc' => hmin l (by simp [hl]) hne c hc'
      have hacc' : rankStep cost acc h = none ∨
          ∃ m b, rankStep cost acc h = some (m, b) ∧ cstar < m := by
        simp only [rankStep]
        cases hch : cost h with
        | none => exact hacc
        | some ch =>
          have hlt : cstar < ch := hmin h (by simp) hh ch hch
          rcases hacc with rfl | ⟨m, b, rfl, hm⟩
          · exact Or.inr ⟨ch, h, rfl, hlt⟩
          · dsimp only
            by_cases hcond : m = 0 ∨ ch < m
            · rw [if_pos hcond]
              exact Or.inr ⟨ch, h, rfl, hlt⟩
            · rw [if_neg hcond]
              exact Or.inr ⟨m, b, rfl, hm⟩
      exact ih (rankStep cost acc h) (List.nodup_cons.mp hnd).2 hmem' hmin' hacc'

/-- Claim C9 (amended): admission and ranking are functions of the entry,
the configuration and the global inflection map together with, for the
ranker, the iteration order of the main-label set (which Python's
set-of-strings hashing does not determine from the inputs across runs);
whenever one candidate attains strictly minimal cost, the chosen label is
independent of that order: any two enumerations of the set agree. -/
theorem ranking_deterministic_unique_min (ops : TextOps) (cfg : RankConfig)
    (word : String) (items : List Item) (o1 o2 : List String)
    (hnd : o1.Nodup) (hperm : o1.Perm o2) (hlen : 2 ≤ o1.length)
    (lstar : String) (cstar : ℝ)
    (hmem : lstar ∈ o1)
    (hcost : labelCost ops cfg (isStopWord word) lstar
      (items.filter (·.label == lstar)) = some cstar)
    (hmin : ∀ l ∈ o1, l ≠ lstar → ∀ c,
      labelCost ops cfg (isStopWord word) l (items.filter (·.label == l)) = some c →
        cstar < c) :
    chooseBestLabel ops cfg word items o1 = chooseBestLabel ops cfg word items o2 := by
  have key : ∀ o : List String, o.Nodup → 2 ≤ o.length → lstar ∈ o →
      (∀ l ∈ o, l ≠ lstar → ∀ c,
        labelCost ops cfg (isStopWord word) l (items.filter (·.label == l)) = some c →
          cstar < c) →
      chooseBestLabel ops cfg word items o = some lstar := by
    intro o hond holen homem homin
    obtain ⟨a, rest, rfl⟩ : ∃ a rest, o = a :: rest := by
      cases o with
      | nil => simp at holen
      | cons a rest => exact ⟨a, rest, rfl⟩
    obtain ⟨b, t, rfl⟩ : ∃ b t, rest = b :: t := by
      cases rest with
      | nil => simp at holen
      | cons b t => exact ⟨b, t, rfl⟩
    simp only [chooseBestLabel, rankLabels]
    rw [rankFold_find
      (fun l => labelCost ops cfg (isStopWord word) l (items.filter (·.label == l)))
      (fun l c hl => labelCost_pos ops cfg (isStopWord word) l _ c hl)
      cstar lstar hcost (a :: b :: t) none hond homem homin (Or.inl rfl)]
    rfl
  rw [key o1 hnd hlen hmem hmin,
    key o2 (hperm.nodup hnd) (hperm.length_eq ▸ hlen) (hperm.subset hmem)
      (fun l hl hne c hc' => hmin l (hperm.symm.subset hl) hne c hc')]

/-- Claim C9 fails as stated: the ranker is not a function of entry,
configuration and inflection map alone.  With two main-label candidates of
identical cost, the chosen label depends on the iteration order of the
main-label set — a Python `set` of strings, whose order hash randomization
changes across runs on identical inputs: the two enumerations of the same
set pick different labels. -/
theorem ranking_order_counterexample :
    List.Perm ["aa", "bb"] ["bb", "aa"] ∧
    chooseBestLabel plainOps rankCfg0 "word" twinItems ["aa", "bb"] = some "aa" ∧
    chooseBestLabel plainOps rankCfg0 "word" twinItems ["bb", "aa"] = some "bb" := by
  have hstop : isStopWord "word" = false := by decide
  have hfa : twinItems.filter (·.label == "aa") =
      [{ pos := "noun", label := "aa", text := "w w w w w w w w w" }] := by decide
  have hfb : twinItems.filter (·.label == "bb") =
      [{ pos := "noun", label := "bb", text := "w w w w w w w w w" }] := by decide
  have hca : labelCost plainOps rankCfg0 false "aa"
      [{ pos := "noun", label := "aa", text := "w w w w w w w w w" }] =
      some ((Real.log 5 + 0.5) * 1.25) := by
    rw [labelCost_uniform plainOps rankCfg0 false "aa" _ 8 (by decide)
      (fun i hi => by
        refine ⟨?_, ?_, ?_, ?_⟩ <;> · simp only [List.mem_singleton] at hi; subst hi; decide)]
    rw [if_neg (by decide), if_neg (by decide)]
    norm_num [abs_of_nonneg (Real.log_nonneg (by norm_num : (1 : ℝ) ≤ 5))]
  have hcb : labelCost plainOps rankCfg0 false "bb"
      [{ pos := "noun", label := "bb", text := "w w w w w w w w w" }] =
      some ((Real.log 5 + 0.5) * 1.25) := by
    rw [labelCost_uniform plainOps rankCfg0 false "bb" _ 8 (by decide)
      (fun i hi => by
        refine ⟨?_, ?_, ?_, ?_⟩ <;> · simp only [List.mem_singleton] at hi; subst hi; decide)]
    rw [if_neg (by decide), if_neg (by decide)]
    norm_num [abs_of_nonneg (Real.log_nonneg (by norm_num : (1 : ℝ) ≤ 5))]
  have hcpos : (0 : ℝ) < (Real.log 5 + 0.5) * 1.25 := by
    have : (0 : ℝ) ≤ Real.log 5 := Real.log_nonneg (by norm_num)
    nlinarith
  have hnot : ¬((Real.log 5 + 0.5) * 1.25 = 0 ∨
      (Real.log 5 + 0.5) * 1.25 < (Real.log 5 + 0.5) * 1.25) := by
    rintro (h0 | hlt)
    · exact absurd h0 (ne_of_gt hcpos)
    · exact absurd hlt (lt_irrefl _)
  refine ⟨by decide, ?_, ?_⟩
  · simp only [chooseBestLabel, rankLabels, List.foldl_cons, List.foldl_nil,
      rankStep, hstop, hfa, hfb, hca, hcb]
    rw [if_neg hnot]
    rfl
  · simp only [chooseBestLabel, rankLabels, List.foldl_cons, List.foldl_nil,
      rankStep, hstop, hfa, hfb, hca, hcb]
    rw [if_neg hnot]
    rfl

/-- Witness for the amended C9: with a best label against a plain label on
the same item profile the minimum is unique, and both enumerations of the
set agree. -/
theorem ranking_deterministic_unique_min_witness :
    chooseBestLabel plainOps rankCfg0 "word" uniqItems ["xa", "zz"] =
      chooseBestLabel plainOps rankCfg0 "word" uniqItems ["zz", "xa"] := by
  have hstop : isStopWord "word" = false := by decide
  have hfx : uniqItems.filter (·.label == "xa") =
      [{ pos := "noun", label := "xa", text := "w w w w w w w w w" }] := by decide
  have hfz : uniqItems.filter (·.label == "zz") =
      [{ pos := "noun", label := "zz", text := "w w w w w w w w w" }] := by decide
  have hcx : labelCost plainOps rankCfg0 false "xa"
      [{ pos := "noun", label := "xa", text := "w w w w w w w w w" }] =
      some ((Real.log 5 + 0.5) * 0.8) := by
    rw [labelCost_uniform plainOps rankCfg0 false "xa" _ 8 (by decide)
      (fun i hi => by
        refine ⟨?_, ?_, ?_, ?_⟩ <;> · simp only [List.mem_singleton] at hi; subst hi; decide)]
    rw [if_pos (by decide)]
    norm_num [abs_of_nonneg (Real.log_nonneg (by norm_num : (1 : ℝ) ≤ 5))]
  have hcz : labelCost plainOps rankCfg0 false "zz"
      [{ pos := "noun", label := "zz", text := "w w w w w w w w w" }] =
      some ((Real.log 5 + 0.5) * 1.25) := by
    rw [labelCost_uniform plainOps rankCfg0 false "zz" _ 8 (by decide)
      (fun i hi => by
        refine ⟨?_, ?_, ?_, ?_⟩ <;> · simp only [List.mem_singleton] at hi; subst hi; decide)]
    rw [if_neg (by decide), if_neg (by decide)]
    norm_num [abs_of_nonneg (Real.log_nonneg (by norm_num : (1 : ℝ) ≤ 5))]
  refine ranking_deterministic_unique_min plainOps rankCfg0 "word" uniqItems
    ["xa", "zz"] ["zz", "xa"] (by decide) (by decide) (by decide) "xa"
    ((Real.log 5 + 0.5) * 0.8) (by decide) ?_ ?_
  · rw [hstop, hfx]
    exact hcx
  · intro l hl hne c hc
    have hlz : l = "zz" := by
      rcases List.mem_cons.mp hl with h | h
      · exact absurd h hne
      · simpa using h
    subst hlz
    rw [hstop, hfz, hcz] at hc
    injection hc with hc'
    rw [← hc']
    have : (0 : ℝ) ≤ Real.log 5 := Real.log_nonneg (by norm_num)
    nlinarith
